import Mathlib

/-!
Verification of the legolOS cycle-accurate virtual machine and raster screen.

The definitions below are a shallow embedding of `src/instructions.rs`,
`src/machines.rs` and `src/screens.rs`:

* `Instruction`, `VirtualMachine` and its methods (`new`, `is_executing`,
  `read_register`, `get_ticks`, `cycle` with its helpers `schedule` and
  `execute`) mirror `machines.rs`.  The Rust `cycle` can panic (via
  `unwrap()`) exactly when the program is exhausted; we model that by
  returning `Option VirtualMachine`, with `none` standing for the panic.
* `Pixel`, `Screen` and its methods (`new`, `light`, `refresh`) and the
  `Display` rendering (`Screen.fmt`) mirror `screens.rs`.  The Rust
  `refresh` is a `while self.machine.is_executing()` loop; we embed it as
  `Screen.refreshAux` driven by the exact number of cycles the machine has
  left (`VirtualMachine.remaining`), and prove (`refresh_while`) that the
  resulting function satisfies precisely the one-step unfolding law of the
  source's while loop.
-/

/-- Instructions of the machine, from `instructions.rs`: `Noop` and
`Addx(isize)`.  `isize` is modelled as `Int`. -/
inductive Instruction : Type where
  | Noop : Instruction
  | Addx : Int → Instruction
deriving DecidableEq

/-- The machine state, from `machines.rs`: the pending program (a
`VecDeque` consumed at the front, modelled as a `List` consumed at the
head), the optional in-flight instruction, the single register (initially
1) and the tick counter. -/
structure VirtualMachine : Type where
  program : List Instruction
  in_flight : Option Instruction
  register : Int
  ticks : Nat
deriving DecidableEq

/-- Embeds `VirtualMachine::new`: empty in-flight slot, ticks start at 1,
register starts at 1. -/
def VirtualMachine.new (program : List Instruction) : VirtualMachine :=
  { program := program, in_flight := none, register := 1, ticks := 1 }

/-- Embeds `VirtualMachine::is_executing`: true while the program queue is
non-empty or an instruction is in flight. -/
def VirtualMachine.is_executing (vm : VirtualMachine) : Bool :=
  !vm.program.isEmpty || !vm.in_flight.isNone

/-- Embeds `VirtualMachine::read_register`. -/
def VirtualMachine.read_register (vm : VirtualMachine) : Int :=
  vm.register

/-- Embeds `VirtualMachine::get_ticks`. -/
def VirtualMachine.get_ticks (vm : VirtualMachine) : Nat :=
  vm.ticks

/-- Embeds `VirtualMachine::execute`: applies the in-flight instruction (a
`Noop` is ignored, an `Addx` adds to the register) and clears the slot.
The Rust code calls `unwrap()` on the slot; an empty slot would panic,
modelled by `none`. -/
def VirtualMachine.execute (vm : VirtualMachine) : Option VirtualMachine :=
  match vm.in_flight with
  | none => none
  | some instruction =>
    match instruction with
    | Instruction.Noop => some { vm with in_flight := none }
    | Instruction.Addx number =>
      some { vm with register := vm.register + number, in_flight := none }

/-- Embeds `VirtualMachine::schedule`: pops the next instruction off the program.
A `Noop` completes at once; an `Addx` is placed in the in-flight slot.
The Rust code calls `unwrap()` on `pop_front()`; an empty program would
panic, modelled by `none`. -/
def VirtualMachine.schedule (vm : VirtualMachine) : Option VirtualMachine :=
  match vm.program with
  | [] => none
  | instruction :: rest =>
    match instruction with
    | Instruction.Noop => some { vm with program := rest }
    | Instruction.Addx _ =>
      some { vm with program := rest, in_flight := some instruction }

/-- Embeds `VirtualMachine::cycle`: schedule when nothing is in flight, else
execute, then increment the tick counter at the very end.  `none` models
the panic that the Rust code raises when the program is exhausted. -/
def VirtualMachine.cycle (vm : VirtualMachine) : Option VirtualMachine :=
  (if vm.in_flight.isNone then vm.schedule else vm.execute).map
    (fun v => { v with ticks := v.ticks + 1 })

/-- Total wrapper around `cycle`, used to state facts about iterating the
machine: when `cycle` would panic the state is left unchanged. -/
def VirtualMachine.step (vm : VirtualMachine) : VirtualMachine :=
  (vm.cycle).getD vm

/-- Cycle latency of an instruction, as documented in `instructions.rs`:
a `Noop` takes one cycle, an `Addx` two. -/
def Instruction.latency : Instruction → Nat
  | Instruction.Noop => 1
  | Instruction.Addx _ => 2

/-- Total number of machine cycles a program takes to execute. -/
def cyclesOf (p : List Instruction) : Nat :=
  (p.map Instruction.latency).sum

/-- Number of cycles the machine still has to run before
`is_executing` becomes false. -/
def VirtualMachine.remaining (vm : VirtualMachine) : Nat :=
  cyclesOf vm.program + (if vm.in_flight.isSome then 1 else 0)

/-- Sum of the operands of all `Addx` instructions of a program. -/
def sumDeltas (p : List Instruction) : Int :=
  (p.map (fun i => match i with
    | Instruction.Noop => 0
    | Instruction.Addx d => d)).sum

/-- A pixel of the screen, from `screens.rs`. -/
inductive Pixel : Type where
  | Lit : Pixel
  | Dark : Pixel
deriving DecidableEq

/-- Embeds `impl Into<char> for Pixel`. -/
def Pixel.toChar : Pixel → Char
  | Pixel.Lit => '#'
  | Pixel.Dark => '.'

/-- Constant `SCREEN_WIDTH` from `screens.rs`. -/
def SCREEN_WIDTH : Nat := 40

/-- Constant `SCREEN_HEIGHT` from `screens.rs`. -/
def SCREEN_HEIGHT : Nat := 6

/-- The screen, from `screens.rs`: the machine it owns, the sprite middle
and the fixed-size pixel array (modelled as a list; every screen built by
`Screen.new` has 240 pixels, and every operation preserves the length). -/
structure Screen : Type where
  machine : VirtualMachine
  sprite_middle : Int
  pixels : List Pixel
deriving DecidableEq

/-- Embeds `Screen::new`: every pixel dark, sprite middle at 1. -/
def Screen.new (machine : VirtualMachine) : Screen :=
  { machine := machine
    sprite_middle := 1
    pixels := List.replicate (SCREEN_WIDTH * SCREEN_HEIGHT) Pixel.Dark }

/-- Embeds `Screen::light`: computes the screen index from the machine's tick
counter, returns unchanged if the index is past the raster, otherwise
lights the pixel whenever the row column is within one of the sprite
middle. -/
def Screen.light (s : Screen) : Screen :=
  let screen_index := s.machine.get_ticks - 1
  let middle := s.sprite_middle
  if screen_index ≥ SCREEN_HEIGHT * SCREEN_WIDTH then s
  else
    let row_index : Int := (screen_index % SCREEN_WIDTH : Nat)
    if row_index = middle ∨ row_index = middle - 1 ∨ row_index = middle + 1 then
      { s with pixels := s.pixels.set screen_index Pixel.Lit }
    else s

/-- Body of `Screen::refresh`, fuelled by the number of loop iterations.
One iteration samples a pixel (`light`), cycles the machine, and reloads
the sprite middle from the register, exactly as the Rust loop body does.
`Screen.refresh` below supplies the exact fuel, and `refresh_while`
proves the resulting function satisfies the while-loop unfolding of the
source. -/
def Screen.refreshAux : Nat → Screen → Screen
  | 0, s => s
  | fuel + 1, s =>
    if s.machine.is_executing then
      let s1 := s.light
      let m := s1.machine.step
      Screen.refreshAux fuel
        { machine := m, sprite_middle := m.read_register, pixels := s1.pixels }
    else s

/-- Embeds `Screen::refresh`: runs the sampling loop until the machine stops
executing.  The loop runs exactly `remaining` times (each `cycle` call
decreases `remaining` by one, and `is_executing` holds iff `remaining`
is positive), so that much fuel realises the source's while loop. -/
def Screen.refresh (s : Screen) : Screen :=
  Screen.refreshAux s.machine.remaining s

/-- Body of the `Display` implementation for `Screen`: walks the pixels
keeping a column counter; before printing a pixel whose column counter
has reached 40 it emits a line break and resets the counter; a final
line break follows the last pixel. -/
def fmtAux : List Pixel → Nat → List Char
  | [], _ => ['\n']
  | p :: ps, column =>
    if column = 40 then '\n' :: p.toChar :: fmtAux ps 1
    else p.toChar :: fmtAux ps (column + 1)

/-- Embeds `impl Display for Screen`: the rendered character sequence. -/
def Screen.fmt (s : Screen) : List Char :=
  fmtAux s.pixels 0

/-- The register value the engine holds immediately before the cycle that
produces pixel `j` of a run of program `p`: the register after `j`
completed cycles (the initial value 1 when `j = 0`). -/
def registerBeforePixel (p : List Instruction) (j : Nat) : Int :=
  (VirtualMachine.step^[j] (VirtualMachine.new p)).register

/-- The lighting condition `Screen::light` tests at machine state `w`
when the sprite middle equals `w`'s register: the current screen column
is within one of the sprite middle. -/
def litAt (w : VirtualMachine) : Prop :=
  ((((w.get_ticks - 1) % SCREEN_WIDTH : Nat) : Int) = w.read_register
    ∨ (((w.get_ticks - 1) % SCREEN_WIDTH : Nat) : Int) = w.read_register - 1
    ∨ (((w.get_ticks - 1) % SCREEN_WIDTH : Nat) : Int) = w.read_register + 1)

instance : DecidablePred litAt := fun w => by
  unfold litAt
  infer_instance

/-- The sum of the `Addx` operands the machine has not yet applied: the
deltas still in the program plus a delta sitting in the in-flight slot. -/
def pendingSum (vm : VirtualMachine) : Int :=
  sumDeltas vm.program +
    (match vm.in_flight with
     | some (Instruction.Addx d) => d
     | _ => 0)

/-- Shape of a rendered raster: `k` rows, each the first `SCREEN_WIDTH`
pixels mapped to their characters followed by a line break.  Used to state
what the `Display` implementation produces. -/
def renderedRows : Nat → List Pixel → List Char
  | 0, _ => []
  | k + 1, ps =>
    (ps.take SCREEN_WIDTH).map Pixel.toChar ++ '\n' :: renderedRows k (ps.drop SCREEN_WIDTH)

theorem cycle_eq_none_iff (vm : VirtualMachine) :
    vm.cycle = none ↔ vm.is_executing = false := by
  rcases vm with ⟨prog, infl, reg, t⟩
  cases infl with
  | none =>
    cases prog with
    | nil =>
      simp [VirtualMachine.cycle, VirtualMachine.schedule, VirtualMachine.is_executing]
    | cons i rest =>
      cases i <;>
        simp [VirtualMachine.cycle, VirtualMachine.schedule, VirtualMachine.is_executing]
  | some i =>
    cases i <;>
      simp [VirtualMachine.cycle, VirtualMachine.execute, VirtualMachine.is_executing]

theorem cycle_noop_head (vm : VirtualMachine) (rest : List Instruction)
    (hf : vm.in_flight = none) (hp : vm.program = Instruction.Noop :: rest) :
    vm.cycle = some { program := rest, in_flight := none,
                      register := vm.register, ticks := vm.ticks + 1 } := by
  rcases vm with ⟨prog, infl, reg, t⟩
  simp only at hf hp
  subst hf hp
  rfl

theorem cycle_addx_head (vm : VirtualMachine) (d : Int) (rest : List Instruction)
    (hf : vm.in_flight = none) (hp : vm.program = Instruction.Addx d :: rest) :
    vm.cycle = some { program := rest, in_flight := some (Instruction.Addx d),
                      register := vm.register, ticks := vm.ticks + 1 } := by
  rcases vm with ⟨prog, infl, reg, t⟩
  simp only at hf hp
  subst hf hp
  rfl

theorem cycle_inflight_noop (vm : VirtualMachine)
    (hf : vm.in_flight = some Instruction.Noop) :
    vm.cycle = some { program := vm.program, in_flight := none,
                      register := vm.register, ticks := vm.ticks + 1 } := by
  rcases vm with ⟨prog, infl, reg, t⟩
  simp only at hf
  subst hf
  rfl

theorem cycle_inflight_addx (vm : VirtualMachine) (d : Int)
    (hf : vm.in_flight = some (Instruction.Addx d)) :
    vm.cycle = some { program := vm.program, in_flight := none,
                      register := vm.register + d, ticks := vm.ticks + 1 } := by
  rcases vm with ⟨prog, infl, reg, t⟩
  simp only at hf
  subst hf
  rfl

theorem cyclesOf_eq_zero (p : List Instruction) : cyclesOf p = 0 ↔ p = [] := by
  cases p with
  | nil => simp [cyclesOf]
  | cons i rest =>
    cases i <;> simp [cyclesOf, Instruction.latency]

theorem remaining_eq_zero_iff (vm : VirtualMachine) :
    vm.remaining = 0 ↔ vm.is_executing = false := by
  rcases vm with ⟨prog, infl, reg, t⟩
  cases infl with
  | none =>
    simp [VirtualMachine.remaining, VirtualMachine.is_executing,
      cyclesOf_eq_zero, List.isEmpty_iff]
  | some i =>
    simp [VirtualMachine.remaining, VirtualMachine.is_executing]

theorem cycle_of_executing (vm : VirtualMachine) (h : vm.is_executing = true) :
    vm.cycle = some vm.step := by
  rcases hc : vm.cycle with _ | vm'
  · rw [cycle_eq_none_iff] at hc
    rw [h] at hc
    exact absurd hc (by simp)
  · simp [VirtualMachine.step, hc]

theorem step_ticks (vm : VirtualMachine) (h : vm.is_executing = true) :
    vm.step.ticks = vm.ticks + 1 := by
  rcases vm with ⟨prog, infl, reg, t⟩
  cases infl with
  | none =>
    cases prog with
    | nil => simp [VirtualMachine.is_executing] at h
    | cons i rest =>
      cases i <;>
        simp [VirtualMachine.step, VirtualMachine.cycle, VirtualMachine.schedule]
  | some i =>
    cases i <;>
      simp [VirtualMachine.step, VirtualMachine.cycle, VirtualMachine.execute]

theorem step_remaining (vm : VirtualMachine) (h : vm.is_executing = true) :
    vm.step.remaining + 1 = vm.remaining := by
  rcases vm with ⟨prog, infl, reg, t⟩
  cases infl with
  | none =>
    cases prog with
    | nil => simp [VirtualMachine.is_executing] at h
    | cons i rest =>
      cases i <;>
        simp [VirtualMachine.step, VirtualMachine.cycle, VirtualMachine.schedule,
          VirtualMachine.remaining, cyclesOf, Instruction.latency] <;> omega
  | some i =>
    cases i <;>
      simp [VirtualMachine.step, VirtualMachine.cycle, VirtualMachine.execute,
        VirtualMachine.remaining, cyclesOf]

theorem light_machine (s : Screen) : s.light.machine = s.machine := by
  simp only [Screen.light]
  split
  · rfl
  · split <;> rfl

theorem light_middle (s : Screen) : s.light.sprite_middle = s.sprite_middle := by
  simp only [Screen.light]
  split
  · rfl
  · split <;> rfl

theorem light_length (s : Screen) : s.light.pixels.length = s.pixels.length := by
  simp only [Screen.light]
  split
  · rfl
  · split
    · simp [List.length_set]
    · rfl

theorem refresh_while (s : Screen) :
    s.refresh =
      if s.machine.is_executing then
        Screen.refresh
          { machine := s.light.machine.step,
            sprite_middle := s.light.machine.step.read_register,
            pixels := s.light.pixels }
      else s := by
  unfold Screen.refresh
  cases hrem : s.machine.remaining with
  | zero =>
    have hex : s.machine.is_executing = false := (remaining_eq_zero_iff _).mp hrem
    simp [Screen.refreshAux, hex]
  | succ n =>
    cases hex : s.machine.is_executing with
    | false =>
      have h0 := (remaining_eq_zero_iff s.machine).mpr hex
      omega
    | true =>
      simp only [Screen.refreshAux, hex, if_true]
      have hm : s.light.machine = s.machine := light_machine s
      have hrem2 : (s.light.machine.step).remaining + 1 = s.machine.remaining := by
        rw [hm]
        exact step_remaining _ hex
      have : (s.light.machine.step).remaining = n := by omega
      rw [this]

theorem refreshAux_remaining_final (n : Nat) :
    ∀ s : Screen, s.machine.remaining ≤ n → (Screen.refreshAux n s).machine.remaining = 0 := by
  induction n with
  | zero =>
    intro s h
    simpa [Screen.refreshAux] using h
  | succ n ih =>
    intro s h
    cases hex : s.machine.is_executing with
    | false =>
      simp only [Screen.refreshAux, hex]
      simp [(remaining_eq_zero_iff s.machine).mpr hex]
    | true =>
      simp only [Screen.refreshAux, hex, if_true]
      apply ih
      show (s.light.machine.step).remaining ≤ n
      have hm : s.light.machine = s.machine := light_machine s
      have hrem2 : (s.light.machine.step).remaining + 1 = s.machine.remaining := by
        rw [hm]
        exact step_remaining _ hex
      omega

theorem refresh_machine_final (s : Screen) : (s.refresh).machine.is_executing = false :=
  (remaining_eq_zero_iff _).mp (refreshAux_remaining_final _ s le_rfl)

theorem refresh_of_finished (s : Screen) (h : s.machine.is_executing = false) :
    s.refresh = s := by
  unfold Screen.refresh
  rw [(remaining_eq_zero_iff s.machine).mpr h]
  rfl

theorem refresh_idem (s : Screen) : s.refresh.refresh = s.refresh :=
  refresh_of_finished _ (refresh_machine_final s)

theorem getD_set_self {α : Type} (l : List α) (i : Nat) (a d : α)
    (h : i < l.length) : (l.set i a).getD i d = a := by
  induction l generalizing i with
  | nil => simp at h
  | cons x xs ih =>
    cases i with
    | zero => simp
    | succ i =>
      simp only [List.set_cons_succ, List.getD_cons_succ]
      exact ih i (by simpa using h)

theorem getD_set_ne {α : Type} (l : List α) (i j : Nat) (a d : α)
    (h : i ≠ j) : (l.set i a).getD j d = l.getD j d := by
  induction l generalizing i j with
  | nil => simp [List.getD]
  | cons x xs ih =>
    cases i with
    | zero =>
      cases j with
      | zero => exact absurd rfl h
      | succ j => simp
    | succ i =>
      cases j with
      | zero => simp
      | succ j =>
        simp only [List.set_cons_succ, List.getD_cons_succ]
        exact ih i j (by omega)

theorem getD_replicate {α : Type} (n j : Nat) (a : α) :
    (List.replicate n a).getD j a = a := by
  induction n generalizing j with
  | zero => simp [List.getD]
  | succ n ih =>
    cases j with
    | zero => simp [List.replicate]
    | succ j =>
      rw [List.replicate_succ, List.getD_cons_succ]
      exact ih j

theorem iterate_ticks_remaining (t : Nat) :
    ∀ vm : VirtualMachine, t ≤ vm.remaining →
      (VirtualMachine.step^[t] vm).ticks = vm.ticks + t ∧
      (VirtualMachine.step^[t] vm).remaining = vm.remaining - t := by
  induction t with
  | zero =>
    intro vm _
    simp
  | succ t ih =>
    intro vm h
    have hex : vm.is_executing = true := by
      cases hb : vm.is_executing with
      | false =>
        have h0 := (remaining_eq_zero_iff vm).mpr hb
        omega
      | true => rfl
    have hr := step_remaining vm hex
    have ht := step_ticks vm hex
    rw [Function.iterate_succ_apply]
    obtain ⟨h1, h2⟩ := ih vm.step (by omega)
    refine ⟨by omega, by omega⟩

theorem light_pixels_spec (vm : VirtualMachine) (mid : Int) (px : List Pixel) :
    ({ machine := vm, sprite_middle := mid, pixels := px } : Screen).light.pixels =
      if vm.ticks - 1 ≥ SCREEN_HEIGHT * SCREEN_WIDTH then px
      else if (((vm.ticks - 1) % SCREEN_WIDTH : Nat) : Int) = mid
          ∨ (((vm.ticks - 1) % SCREEN_WIDTH : Nat) : Int) = mid - 1
          ∨ (((vm.ticks - 1) % SCREEN_WIDTH : Nat) : Int) = mid + 1
        then px.set (vm.ticks - 1) Pixel.Lit
        else px := by
  simp only [Screen.light, VirtualMachine.get_ticks]
  split
  · rfl
  · split
    · rfl
    · rfl

theorem refreshAux_getD (n : Nat) :
    ∀ (vm : VirtualMachine) (px : List Pixel),
      vm.remaining = n → px.length = SCREEN_WIDTH * SCREEN_HEIGHT → 1 ≤ vm.ticks →
      ∀ j : Nat,
        (Screen.refreshAux n
            { machine := vm, sprite_middle := vm.register, pixels := px }).pixels.getD j
            Pixel.Dark =
          if vm.ticks - 1 ≤ j ∧ j < vm.ticks - 1 + n ∧ j < SCREEN_WIDTH * SCREEN_HEIGHT
              ∧ litAt (VirtualMachine.step^[j - (vm.ticks - 1)] vm)
          then Pixel.Lit else px.getD j Pixel.Dark := by
  induction n with
  | zero =>
    intro vm px hrem hlen ht j
    rw [if_neg]
    · rfl
    · rintro ⟨h1, h2, -, -⟩
      omega
  | succ n ih =>
    intro vm px hrem hlen ht j
    have hex : vm.is_executing = true := by
      cases hb : vm.is_executing with
      | false =>
        have h0 := (remaining_eq_zero_iff vm).mpr hb
        omega
      | true => rfl
    have hticks' := step_ticks vm hex
    have hrem' := step_remaining vm hex
    simp only [Screen.refreshAux, light_machine, VirtualMachine.read_register]
    rw [hex, if_pos rfl]
    rw [ih vm.step _ (by omega) (by rw [light_length]; exact hlen) (by omega) j]
    rw [light_pixels_spec]
    rw [hticks']
    simp only [Nat.add_sub_cancel]
    simp only [show SCREEN_HEIGHT * SCREEN_WIDTH = SCREEN_WIDTH * SCREEN_HEIGHT from rfl]
    by_cases hj : j = vm.ticks - 1
    · subst hj
      rw [if_neg (by rintro ⟨a, -, -, -⟩; omega)]
      by_cases h240 : vm.ticks - 1 < SCREEN_WIDTH * SCREEN_HEIGHT
      · rw [if_neg (by omega)]
        by_cases hlit : litAt vm
        · rw [if_pos (by
            simpa only [litAt, VirtualMachine.get_ticks,
              VirtualMachine.read_register] using hlit)]
          rw [getD_set_self _ _ _ _ (by omega)]
          rw [if_pos ⟨Nat.le_refl _, by omega, h240, by
            rw [Nat.sub_self]
            simpa using hlit⟩]
        · rw [if_neg (fun hcond => hlit (by
            simpa only [litAt, VirtualMachine.get_ticks,
              VirtualMachine.read_register] using hcond))]
          rw [if_neg (by
            rintro ⟨-, -, -, d⟩
            rw [Nat.sub_self] at d
            exact hlit (by simpa using d))]
      · rw [if_pos (by omega)]
        rw [if_neg (by rintro ⟨-, -, c, -⟩; omega)]
    · have hpx : (if vm.ticks - 1 ≥ SCREEN_WIDTH * SCREEN_HEIGHT then px
          else if (((vm.ticks - 1) % SCREEN_WIDTH : Nat) : Int) = vm.register
              ∨ (((vm.ticks - 1) % SCREEN_WIDTH : Nat) : Int) = vm.register - 1
              ∨ (((vm.ticks - 1) % SCREEN_WIDTH : Nat) : Int) = vm.register + 1
            then px.set (vm.ticks - 1) Pixel.Lit
            else px).getD j Pixel.Dark = px.getD j Pixel.Dark := by
        split
        · rfl
        · split
          · exact getD_set_ne px (vm.ticks - 1) j _ _ (fun h => hj h.symm)
          · rfl
      rw [hpx]
      apply if_congr ?_ rfl rfl
      constructor
      · rintro ⟨a, b, c, d⟩
        refine ⟨by omega, by omega, c, ?_⟩
        have he : j - (vm.ticks - 1) = (j - vm.ticks) + 1 := by omega
        rw [he, Function.iterate_succ_apply]
        exact d
      · rintro ⟨a, b, c, d⟩
        have hle : vm.ticks ≤ j := by omega
        refine ⟨hle, by omega, c, ?_⟩
        rw [← Function.iterate_succ_apply]
        have he : (j - vm.ticks).succ = j - (vm.ticks - 1) := by omega
        rw [he]
        exact d

theorem new_remaining (p : List Instruction) :
    (VirtualMachine.new p).remaining = cyclesOf p := by
  simp [VirtualMachine.new, VirtualMachine.remaining]

theorem litAt_new_iff (p : List Instruction) (j : Nat) (hj : j < cyclesOf p) :
    litAt (VirtualMachine.step^[j] (VirtualMachine.new p)) ↔
      (((j % SCREEN_WIDTH : Nat) : Int) = registerBeforePixel p j - 1
        ∨ ((j % SCREEN_WIDTH : Nat) : Int) = registerBeforePixel p j
        ∨ ((j % SCREEN_WIDTH : Nat) : Int) = registerBeforePixel p j + 1) := by
  have hrem := new_remaining p
  obtain ⟨hticks, -⟩ := iterate_ticks_remaining j (VirtualMachine.new p) (by omega)
  unfold litAt registerBeforePixel VirtualMachine.get_ticks VirtualMachine.read_register
  rw [hticks]
  rw [show (VirtualMachine.new p).ticks = 1 from rfl]
  rw [show 1 + j - 1 = j from by omega]
  tauto

theorem cycle_inflight_shape (vm vm' : VirtualMachine) (h : vm.cycle = some vm') :
    vm'.in_flight = none ∨ ∃ d, vm'.in_flight = some (Instruction.Addx d) := by
  rcases vm with ⟨prog, infl, reg, t⟩
  cases infl with
  | none =>
    cases prog with
    | nil => simp [VirtualMachine.cycle, VirtualMachine.schedule] at h
    | cons i rest =>
      cases i with
      | Noop =>
        simp [VirtualMachine.cycle, VirtualMachine.schedule] at h
        left
        rw [← h]
      | Addx d =>
        simp [VirtualMachine.cycle, VirtualMachine.schedule] at h
        right
        exact ⟨d, by rw [← h]⟩
  | some i =>
    cases i <;>
      · simp [VirtualMachine.cycle, VirtualMachine.execute] at h
        left
        rw [← h]

theorem cycle_progress (vm vm' : VirtualMachine) (h : vm.cycle = some vm') :
    vm'.program.length < vm.program.length ∨
      (vm.in_flight.isSome = true ∧ vm'.in_flight = none) := by
  rcases vm with ⟨prog, infl, reg, t⟩
  cases infl with
  | none =>
    cases prog with
    | nil => simp [VirtualMachine.cycle, VirtualMachine.schedule] at h
    | cons i rest =>
      cases i <;>
        · simp [VirtualMachine.cycle, VirtualMachine.schedule] at h
          left
          rw [← h]
          simp
  | some i =>
    cases i <;>
      · simp [VirtualMachine.cycle, VirtualMachine.execute] at h
        right
        exact ⟨rfl, by rw [← h]⟩

theorem cycle_ticks (vm vm' : VirtualMachine) (h : vm.cycle = some vm') :
    vm'.ticks = vm.ticks + 1 := by
  have hex : vm.is_executing = true := by
    cases hb : vm.is_executing with
    | false =>
      rw [(cycle_eq_none_iff vm).mpr hb] at h
      exact absurd h (by simp)
    | true => rfl
  have h2 := cycle_of_executing vm hex
  rw [h] at h2
  have h3 : vm' = vm.step := by injection h2
  rw [h3]
  exact step_ticks vm hex

theorem pendingSum_eq_zero (vm : VirtualMachine) (h : vm.is_executing = false) :
    pendingSum vm = 0 := by
  rcases vm with ⟨prog, infl, reg, t⟩
  simp [VirtualMachine.is_executing] at h
  obtain ⟨h1, h2⟩ := h
  subst h1 h2
  simp [pendingSum, sumDeltas]

theorem step_invariant (vm : VirtualMachine) :
    vm.step.register + pendingSum vm.step = vm.register + pendingSum vm := by
  rcases vm with ⟨prog, infl, reg, t⟩
  cases infl with
  | none =>
    cases prog with
    | nil => rfl
    | cons i rest =>
      cases i with
      | Noop =>
        simp [VirtualMachine.step, VirtualMachine.cycle, VirtualMachine.schedule,
          pendingSum, sumDeltas]
      | Addx d =>
        simp [VirtualMachine.step, VirtualMachine.cycle, VirtualMachine.schedule,
          pendingSum, sumDeltas]
        ring
  | some i =>
    cases i with
    | Noop =>
      simp [VirtualMachine.step, VirtualMachine.cycle, VirtualMachine.execute,
        pendingSum, sumDeltas]
    | Addx d =>
      simp [VirtualMachine.step, VirtualMachine.cycle, VirtualMachine.execute,
        pendingSum, sumDeltas]
      ring

theorem iterate_invariant (n : Nat) (vm : VirtualMachine) :
    (VirtualMachine.step^[n] vm).register + pendingSum (VirtualMachine.step^[n] vm) =
      vm.register + pendingSum vm := by
  induction n with
  | zero => simp
  | succ n ih =>
    rw [Function.iterate_succ_apply']
    rw [step_invariant]
    exact ih

theorem fmtAux_chunk (ps : List Pixel) :
    ∀ (rest : List Pixel) (c : Nat), c + ps.length = 40 →
      fmtAux (ps ++ rest) c = ps.map Pixel.toChar ++ fmtAux rest 40 := by
  induction ps with
  | nil =>
    intro rest c h
    simp at h
    subst h
    simp
  | cons p tl ih =>
    intro rest c h
    have hc : ¬c = 40 := by simp at h; omega
    simp only [List.cons_append, fmtAux, if_neg hc, List.append_eq]
    rw [ih rest (c + 1) (by simp at h ⊢; omega)]
    simp

theorem fmtAux_rows (k : Nat) :
    ∀ ps : List Pixel, ps.length = 40 * k →
      fmtAux ps 40 = '\n' :: renderedRows k ps := by
  induction k with
  | zero =>
    intro ps h
    rw [Nat.mul_zero] at h
    rw [List.length_eq_zero] at h
    subst h
    rfl
  | succ k ih =>
    intro ps h
    cases ps with
    | nil => simp at h
    | cons p tl =>
      simp only [fmtAux, if_pos rfl]
      rw [show fmtAux tl 1 = (tl.take 39).map Pixel.toChar ++ fmtAux (tl.drop 39) 40 from by
        conv_lhs => rw [← List.take_append_drop 39 tl]
        exact fmtAux_chunk _ _ 1 (by simp at h ⊢; omega)]
      rw [ih (tl.drop 39) (by simp at h ⊢; omega)]
      rfl

theorem fmt_rows (k : Nat) (ps : List Pixel) (h : ps.length = 40 * (k + 1)) :
    fmtAux ps 0 = renderedRows (k + 1) ps := by
  conv_lhs => rw [← List.take_append_drop 40 ps]
  rw [fmtAux_chunk (ps.take 40) (ps.drop 40) 0 (by simp; omega)]
  rw [fmtAux_rows k (ps.drop 40) (by simp; omega)]
  rfl

/-- Claim C1: an `Addx d` popped from the pending queue by the `cycle()`
call at cycle `k` leaves the register unchanged through the end of that
call, and the register observable via `read_register` equals the old
value plus `d` only after the next `cycle()` call returns; the delta is
never applied during cycle `k`. -/
theorem addx_delta_applied_next_cycle (vm : VirtualMachine) (d : Int)
    (rest : List Instruction) (hf : vm.in_flight = none)
    (hp : vm.program = Instruction.Addx d :: rest) :
    ∃ vm1 vm2, vm.cycle = some vm1 ∧ vm1.read_register = vm.read_register ∧
      vm1.cycle = some vm2 ∧ vm2.read_register = vm.read_register + d :=
  ⟨_, _, cycle_addx_head vm d rest hf hp, rfl, cycle_inflight_addx _ d rfl, rfl⟩

/-- Witness for C1 at a concrete machine running `[Addx 3]`. -/
theorem addx_delta_applied_next_cycle_witness :
    ∃ vm1 vm2, (VirtualMachine.new [Instruction.Addx 3]).cycle = some vm1 ∧
      vm1.read_register = (VirtualMachine.new [Instruction.Addx 3]).read_register ∧
      vm1.cycle = some vm2 ∧
      vm2.read_register = (VirtualMachine.new [Instruction.Addx 3]).read_register + 3 :=
  addx_delta_applied_next_cycle (VirtualMachine.new [Instruction.Addx 3]) 3 [] rfl rfl

/-- Claim C3: `cycle()` fails (the modelled panic, `none`) exactly when
`is_executing` is false, i.e. when the pending queue is empty and no
instruction is in flight; when `is_executing` is true it succeeds. -/
theorem cycle_fails_iff_exhausted (vm : VirtualMachine) :
    (vm.cycle = none ↔ vm.is_executing = false) ∧
    (vm.is_executing = true → ∃ vm', vm.cycle = some vm') :=
  ⟨cycle_eq_none_iff vm, fun h => ⟨vm.step, cycle_of_executing vm h⟩⟩

/-- Witness for C3 at a concrete executing machine. -/
theorem cycle_fails_iff_exhausted_witness :
    ∃ vm', (VirtualMachine.new [Instruction.Noop]).cycle = some vm' :=
  (cycle_fails_iff_exhausted (VirtualMachine.new [Instruction.Noop])).2 (by decide)

/-- Claim C6: a `Noop` never changes the register, retires in exactly one
`cycle()` call (the in-flight slot stays empty), and whenever a `cycle()`
call produces a state with an occupied in-flight slot, that slot holds an
`Addx`. -/
theorem noop_one_cycle_inflight_always_addx (vm vm' : VirtualMachine)
    (rest : List Instruction) :
    (vm.in_flight = none → vm.program = Instruction.Noop :: rest →
      vm.cycle = some { program := rest, in_flight := none,
                        register := vm.register, ticks := vm.ticks + 1 }) ∧
    (vm.cycle = some vm' →
      vm'.in_flight = none ∨ ∃ d, vm'.in_flight = some (Instruction.Addx d)) :=
  ⟨fun hf hp => cycle_noop_head vm rest hf hp, cycle_inflight_shape vm vm'⟩

/-- Witness for C6 at a concrete machine running `[Noop]`. -/
theorem noop_one_cycle_inflight_always_addx_witness :
    (VirtualMachine.new [Instruction.Noop]).cycle =
      some { program := [], in_flight := none,
             register := (VirtualMachine.new [Instruction.Noop]).register,
             ticks := (VirtualMachine.new [Instruction.Noop]).ticks + 1 } ∧
    (({ program := [], in_flight := none, register := 1, ticks := 2 } :
        VirtualMachine).in_flight = none ∨
      ∃ d, ({ program := [], in_flight := none, register := 1, ticks := 2 } :
        VirtualMachine).in_flight = some (Instruction.Addx d)) :=
  ⟨(noop_one_cycle_inflight_always_addx (VirtualMachine.new [Instruction.Noop])
      ⟨[], none, 1, 2⟩ []).1 rfl rfl,
   (noop_one_cycle_inflight_always_addx (VirtualMachine.new [Instruction.Noop])
      ⟨[], none, 1, 2⟩ []).2 (by decide)⟩

/-- Claim C7: the tick counter reads 1 on a freshly constructed machine,
and every successful `cycle()` call increases it by exactly 1. -/
theorem ticks_start_at_one_increment_each_cycle (p : List Instruction)
    (vm vm' : VirtualMachine) :
    (VirtualMachine.new p).get_ticks = 1 ∧
    (vm.cycle = some vm' → vm'.get_ticks = vm.get_ticks + 1) :=
  ⟨rfl, fun h => cycle_ticks vm vm' h⟩

/-- Witness for C7 at a concrete machine. -/
theorem ticks_start_at_one_increment_each_cycle_witness :
    (VirtualMachine.new []).get_ticks = 1 ∧
    ({ program := [], in_flight := none, register := 1, ticks := 2 } :
        VirtualMachine).get_ticks = (VirtualMachine.new [Instruction.Noop]).get_ticks + 1 :=
  ⟨(ticks_start_at_one_increment_each_cycle [] (VirtualMachine.new [])
      (VirtualMachine.new [])).1,
   (ticks_start_at_one_increment_each_cycle [] (VirtualMachine.new [Instruction.Noop])
      ⟨[], none, 1, 2⟩).2 (by decide)⟩

/-- Claim C8: once the engine has finished executing, `refresh()` is the
identity on the sampler, and two consecutive `refresh()` calls always
produce the same state. -/
theorem refresh_idempotent_after_completion (s : Screen) :
    (s.machine.is_executing = false → s.refresh = s) ∧
    s.refresh.refresh = s.refresh :=
  ⟨refresh_of_finished s, refresh_idem s⟩

/-- Witness for C8 at a concrete finished sampler. -/
theorem refresh_idempotent_after_completion_witness :
    (Screen.new (VirtualMachine.new [])).refresh = Screen.new (VirtualMachine.new []) ∧
    (Screen.new (VirtualMachine.new [Instruction.Noop])).refresh.refresh =
      (Screen.new (VirtualMachine.new [Instruction.Noop])).refresh :=
  ⟨(refresh_idempotent_after_completion (Screen.new (VirtualMachine.new []))).1 (by decide),
   (refresh_idempotent_after_completion
      (Screen.new (VirtualMachine.new [Instruction.Noop]))).2⟩

/-- Claim C10: once the engine has finished executing, the register
equals 1 plus the sum of the operands of all `Addx` instructions of the
program, however the `Noop`s are interleaved. -/
theorem final_register_one_plus_deltas (p : List Instruction) (n : Nat)
    (h : (VirtualMachine.step^[n] (VirtualMachine.new p)).is_executing = false) :
    (VirtualMachine.step^[n] (VirtualMachine.new p)).read_register = 1 + sumDeltas p := by
  have hinv := iterate_invariant n (VirtualMachine.new p)
  have hzero := pendingSum_eq_zero _ h
  rw [hzero] at hinv
  have hnew : pendingSum (VirtualMachine.new p) = sumDeltas p := by
    simp [pendingSum, VirtualMachine.new]
  rw [hnew] at hinv
  have hreg : (VirtualMachine.new p).register = 1 := rfl
  rw [hreg] at hinv
  unfold VirtualMachine.read_register
  omega

/-- Witness for C10: the program `[Addx 3, Noop]` finishes after three
cycles with register 4. -/
theorem final_register_one_plus_deltas_witness :
    (VirtualMachine.step^[3]
      (VirtualMachine.new [Instruction.Addx 3, Instruction.Noop])).read_register =
      1 + sumDeltas [Instruction.Addx 3, Instruction.Noop] :=
  final_register_one_plus_deltas [Instruction.Addx 3, Instruction.Noop] 3 (by decide)

/-- Claim C2: after `refresh()` on a fresh screen over a fresh machine,
pixel `j` (for `j < 240`) is `Lit` exactly when some cycle produced pixel
`j` (i.e. `j` is below the program's total cycle count) and `j mod 40`
lies within the closed range `[c-1, c+1]`, where `c` is the register as
it stood immediately before the cycle that produced pixel `j` (the value
after `j` completed cycles, 1 for pixel 0); otherwise it is `Dark`. -/
theorem refresh_pixel_lit_iff (p : List Instruction) (j : Nat)
    (hj : j < SCREEN_WIDTH * SCREEN_HEIGHT) :
    ((Screen.new (VirtualMachine.new p)).refresh).pixels.getD j Pixel.Dark =
      if j < cyclesOf p ∧
          (((j % SCREEN_WIDTH : Nat) : Int) = registerBeforePixel p j - 1
            ∨ ((j % SCREEN_WIDTH : Nat) : Int) = registerBeforePixel p j
            ∨ ((j % SCREEN_WIDTH : Nat) : Int) = registerBeforePixel p j + 1)
      then Pixel.Lit else Pixel.Dark := by
  have hrem := new_remaining p
  have h := refreshAux_getD (cyclesOf p) (VirtualMachine.new p)
    (List.replicate (SCREEN_WIDTH * SCREEN_HEIGHT) Pixel.Dark) hrem (by simp)
    (le_refl 1) j
  unfold Screen.refresh
  rw [show (Screen.new (VirtualMachine.new p)).machine.remaining = cyclesOf p from hrem]
  rw [show (Screen.new (VirtualMachine.new p)) =
    { machine := VirtualMachine.new p,
      sprite_middle := (VirtualMachine.new p).register,
      pixels := List.replicate (SCREEN_WIDTH * SCREEN_HEIGHT) Pixel.Dark } from rfl]
  rw [h]
  rw [show (VirtualMachine.new p).ticks = 1 from rfl]
  simp only [show (1 : Nat) - 1 = 0 from rfl, Nat.zero_add, Nat.sub_zero, Nat.zero_le,
    true_and]
  rw [getD_replicate]
  apply if_congr ?_ rfl rfl
  constructor
  · rintro ⟨a, -, d⟩
    exact ⟨a, (litAt_new_iff p j a).mp d⟩
  · rintro ⟨a, d⟩
    exact ⟨a, hj, (litAt_new_iff p j a).mpr d⟩

/-- Witness for C2: pixel 2 of the run of `[Noop, Addx 3]`. -/
theorem refresh_pixel_lit_iff_witness :
    ((Screen.new (VirtualMachine.new [Instruction.Noop, Instruction.Addx 3])).refresh).pixels.getD
        2 Pixel.Dark =
      if 2 < cyclesOf [Instruction.Noop, Instruction.Addx 3] ∧
          (((2 % SCREEN_WIDTH : Nat) : Int) =
              registerBeforePixel [Instruction.Noop, Instruction.Addx 3] 2 - 1
            ∨ ((2 % SCREEN_WIDTH : Nat) : Int) =
              registerBeforePixel [Instruction.Noop, Instruction.Addx 3] 2
            ∨ ((2 % SCREEN_WIDTH : Nat) : Int) =
              registerBeforePixel [Instruction.Noop, Instruction.Addx 3] 2 + 1)
      then Pixel.Lit else Pixel.Dark :=
  refresh_pixel_lit_iff [Instruction.Noop, Instruction.Addx 3] 2 (by decide)

/-- Claim C4: `refresh()` terminates on every finite program: it obeys the
while-loop unfolding of the source, it leaves the engine no longer
executing, and each successful `cycle()` call makes progress by popping
one instruction off the pending queue or clearing the in-flight slot. -/
theorem refresh_terminates (s : Screen) (vm vm' : VirtualMachine) :
    (s.refresh = if s.machine.is_executing then
        Screen.refresh { machine := s.light.machine.step,
                         sprite_middle := s.light.machine.step.read_register,
                         pixels := s.light.pixels }
      else s) ∧
    (s.refresh).machine.is_executing = false ∧
    (vm.cycle = some vm' →
      vm'.program.length < vm.program.length ∨
        (vm.in_flight.isSome = true ∧ vm'.in_flight = none)) :=
  ⟨refresh_while s, refresh_machine_final s, cycle_progress vm vm'⟩

/-- Witness for C4 at a concrete sampler and machine. -/
theorem refresh_terminates_witness :
    (Screen.new (VirtualMachine.new [Instruction.Noop])).refresh.machine.is_executing
        = false ∧
    (({ program := [], in_flight := none, register := 1, ticks := 2 } :
          VirtualMachine).program.length <
        (VirtualMachine.new [Instruction.Noop]).program.length ∨
      ((VirtualMachine.new [Instruction.Noop]).in_flight.isSome = true ∧
        ({ program := [], in_flight := none, register := 1, ticks := 2 } :
          VirtualMachine).in_flight = none)) :=
  ⟨(refresh_terminates (Screen.new (VirtualMachine.new [Instruction.Noop]))
      (VirtualMachine.new []) (VirtualMachine.new [])).2.1,
   (refresh_terminates (Screen.new (VirtualMachine.new [Instruction.Noop]))
      (VirtualMachine.new [Instruction.Noop]) ⟨[], none, 1, 2⟩).2.2 (by decide)⟩

/-- Claim C5: no pixel write of `light` ever targets an index outside the
raster: when the computed index is at or past `width*height` the screen is
returned unchanged (no write, no error), the pixel list length never
changes, every entry at or past `width*height` is untouched, and so is
every entry other than the computed index. -/
theorem light_no_out_of_bounds_write (s : Screen) (j : Nat) :
    (s.machine.get_ticks - 1 ≥ SCREEN_HEIGHT * SCREEN_WIDTH → s.light = s) ∧
    s.light.pixels.length = s.pixels.length ∧
    (j ≥ SCREEN_HEIGHT * SCREEN_WIDTH →
      s.light.pixels.getD j Pixel.Dark = s.pixels.getD j Pixel.Dark) ∧
    (j ≠ s.machine.get_ticks - 1 →
      s.light.pixels.getD j Pixel.Dark = s.pixels.getD j Pixel.Dark) := by
  refine ⟨?_, light_length s, ?_, ?_⟩
  · intro h
    simp only [Screen.light]
    rw [if_pos h]
  · intro h
    rcases s with ⟨vm, mid, px⟩
    rw [light_pixels_spec]
    split
    · rfl
    · next hlt =>
      split
      · refine getD_set_ne px (vm.ticks - 1) j _ _ ?_
        omega
      · rfl
  · intro h
    rcases s with ⟨vm, mid, px⟩
    simp only [VirtualMachine.get_ticks] at h
    rw [light_pixels_spec]
    split
    · rfl
    · split
      · exact getD_set_ne px (vm.ticks - 1) j _ _ (fun hh => h hh.symm)
      · rfl

/-- Witness for C5 at a concrete screen whose index is past the raster. -/
theorem light_no_out_of_bounds_write_witness :
    (Screen.new { program := [], in_flight := none, register := 1,
                  ticks := 241 }).light =
      Screen.new { program := [], in_flight := none, register := 1, ticks := 241 } ∧
    (Screen.new (VirtualMachine.new [])).light.pixels.getD 240 Pixel.Dark =
      (Screen.new (VirtualMachine.new [])).pixels.getD 240 Pixel.Dark :=
  ⟨(light_no_out_of_bounds_write
      (Screen.new ⟨[], none, 1, 241⟩) 0).1 (by decide),
   (light_no_out_of_bounds_write
      (Screen.new (VirtualMachine.new [])) 240).2.2.1 (by decide)⟩

set_option maxRecDepth 4000 in
/-- Claim C9: the rendering produces `SCREEN_HEIGHT` rows of
`SCREEN_WIDTH` characters each — the pixels in grid order mapped to `#`
for `Lit` and `.` for `Dark` — each row terminated by a line break,
including one after the last row; it is a pure function of the grid, and
before any `refresh()` it yields an all-dark (all `.`) raster. -/
theorem fmt_renders_rows (s : Screen) (m : VirtualMachine) :
    (s.pixels.length = SCREEN_WIDTH * SCREEN_HEIGHT →
      s.fmt = renderedRows SCREEN_HEIGHT s.pixels) ∧
    (Screen.new m).fmt = renderedRows SCREEN_HEIGHT (Screen.new m).pixels ∧
    (Screen.new m).fmt =
      (List.replicate SCREEN_HEIGHT (List.replicate SCREEN_WIDTH '.' ++ ['\n'])).flatten := by
  refine ⟨fun h => fmt_rows 5 s.pixels h,
    fmt_rows 5 _ (by simp [Screen.new, SCREEN_WIDTH, SCREEN_HEIGHT]), ?_⟩
  rfl

/-- Witness for C9 at a concrete screen. -/
theorem fmt_renders_rows_witness :
    (Screen.new (VirtualMachine.new [])).fmt =
      renderedRows SCREEN_HEIGHT (Screen.new (VirtualMachine.new [])).pixels :=
  (fmt_renders_rows (Screen.new (VirtualMachine.new []))
    (VirtualMachine.new [])).1 (by simp [Screen.new])
